import Mathlib

/-!
Shallow embedding of the reliability layer of the wabot service
(src/index.js) together with proofs about the embedded operations.

Embedded components:
* the Mongo GridFS snapshot store created by createFixedStore
  (sessionExists / save / extract / delete), lines 1188-1246;
* the per-sender inbound rate limiter isRateLimited and its periodic
  sweep, lines 536-546;
* the outbound delivery queue processQueue / queuedReply, lines 548-584;
* the lifecycle controller: the start routine, the client event
  handlers, the ready watchdog and scheduleRestart, lines 1679-1798;
* the process-wide error guards classifyError and the
  uncaughtException / unhandledRejection handlers, lines 1800-1834.

JavaScript numbers that only ever hold timestamps and byte sizes are
modelled as Nat; where the source subtracts possibly-larger from
smaller numbers the comparison is carried out in Int.
-/

/-! ## Generic list helpers (character sequences for string matching) -/

/-- Boolean test that the first list is a prefix of the second
(character-level semantics of JavaScript String.startsWith). -/
def lpre [DecidableEq α] : List α → List α → Bool
  | [], _ => true
  | _ :: _, [] => false
  | a :: as, b :: bs => if a = b then lpre as bs else false

/-- Boolean test that the first list occurs contiguously inside the second
(character-level semantics of JavaScript String.includes). -/
def seqIn [DecidableEq α] : List α → List α → Bool
  | nd, [] => lpre nd []
  | nd, h :: t => lpre nd (h :: t) || seqIn nd t

/-- JavaScript s.startsWith(pre), on the characters of the strings. -/
def strStarts (s pre : String) : Bool := lpre pre.data s.data

/-- JavaScript s.includes(sub), on the characters of the strings. -/
def strIncludes (s sub : String) : Bool := seqIn sub.data s.data

theorem lpre_self_append [DecidableEq α] (p q : List α) : lpre p (p ++ q) = true := by
  induction p with
  | nil => rfl
  | cons a as ih => simp [lpre, ih]

/-! ## Snapshot store (createFixedStore, src/index.js lines 1188-1246)

A GridFS file document is a `Slot`: its `_id` (`sid`), its `filename`,
its `uploadDate` and its `length` (`size`). A `Bucket` is the list of
file documents of one per-session GridFS bucket, in insertion order,
plus the next fresh `_id`. -/

/-- Minimum byte size below which a snapshot blob is treated as corrupt:
the literal 1000 in the save and extract checks. -/
def SIZE_THRESHOLD : Nat := 1000

/-- One stored GridFS file document. -/
structure Slot where
  sid : Nat
  filename : String
  uploadDate : Nat
  size : Nat
deriving DecidableEq, Repr

/-- The contents of one per-session GridFS bucket. -/
structure Bucket where
  slots : List Slot
  nextSid : Nat
deriving DecidableEq, Repr

def emptyBucket : Bucket := ⟨[], 0⟩

/-- Slot name used by save: sn + '.zip.' + Date.now(). -/
def slotName (sn : String) (now : Nat) : String := sn ++ ".zip." ++ toString now

/-- The filter d.filename.startsWith(sn + '.zip.') applied by save and
extract to the documents of the bucket. -/
def matchingSlots (sn : String) (l : List Slot) : List Slot :=
  l.filter (fun d => strStarts d.filename (sn ++ ".zip."))

/-- Stable insertion (ascending by uploadDate) mirroring the comparator
(a, b) => a.uploadDate - b.uploadDate of Array.prototype.sort. -/
def insAsc (s : Slot) : List Slot → List Slot
  | [] => [s]
  | t :: ts => if s.uploadDate ≤ t.uploadDate then s :: t :: ts else t :: insAsc s ts

/-- Sort ascending by uploadDate (oldest first), as in save's pruning. -/
def sortAsc : List Slot → List Slot
  | [] => []
  | h :: t => insAsc h (sortAsc t)

/-- Stable insertion (descending by uploadDate) mirroring the comparator
(a, b) => b.uploadDate - a.uploadDate of Array.prototype.sort. -/
def insDesc (s : Slot) : List Slot → List Slot
  | [] => [s]
  | t :: ts => if t.uploadDate ≤ s.uploadDate then s :: t :: ts else t :: insDesc s ts

/-- Sort descending by uploadDate (newest first), as in extract. -/
def sortDesc : List Slot → List Slot
  | [] => []
  | h :: t => insDesc h (sortDesc t)

/-- Boolean check that a slot list is ordered newest-first. -/
def descByDate : List Slot → Bool
  | [] => true
  | [_] => true
  | a :: b :: t => decide (b.uploadDate ≤ a.uploadDate) && descByDate (b :: t)

/-- Result of one call to the store's save. `skippedNoZip` models the
early return taken when the local zip file is absent ('Zip not found
(skip)'); `corruptInput` models the thrown 'Zip too small' error;
`saved` models the successful upload-and-prune path. -/
inductive SaveResult
  | saved
  | skippedNoZip
  | corruptInput
deriving DecidableEq, Repr

/-- True exactly for the outcomes on which save throws. -/
def SaveResult.isFailure : SaveResult → Bool
  | .corruptInput => true
  | _ => false

/-- The store's save (src/index.js lines 1199-1216), with the retention
bound a parameter (the source fixes MAX_BACKUPS = 1). `zipExists` and
`zipSize` describe the local blob at zipPath; `now` is Date.now(), also
used as the slot's uploadDate. Returns the outcome together with the
bucket after the call; the two error paths occur before any upload and
leave the bucket unchanged. -/
def save (maxBackups : Nat) (sn : String) (zipExists : Bool) (zipSize : Nat)
    (now : Nat) (b : Bucket) : SaveResult × Bucket :=
  if ¬zipExists then (.skippedNoZip, b)
  else if zipSize < SIZE_THRESHOLD then (.corruptInput, b)
  else
    let newSlot : Slot := ⟨b.nextSid, slotName sn now, now, zipSize⟩
    let afterUpload : List Slot := b.slots ++ [newSlot]
    let slots := sortAsc (matchingSlots sn afterUpload)
    let toDel := slots.take (slots.length - maxBackups)
    let delSids := toDel.map Slot.sid
    let keep := afterUpload.filter (fun d => decide (d.sid ∉ delSids))
    (.saved, ⟨keep, b.nextSid + 1⟩)

/-- The retention bound hardcoded in createFixedStore. -/
def MAX_BACKUPS : Nat := 1

/-- save as actually configured by the source (MAX_BACKUPS = 1). -/
def storeSave (sn : String) (zipExists : Bool) (zipSize : Nat) (now : Nat)
    (b : Bucket) : SaveResult × Bucket :=
  save MAX_BACKUPS sn zipExists zipSize now b

/-- Result of one call to the store's extract. `noSlots` models the
thrown 'No backup slots in MongoDB'; `allFailed` the thrown 'All backup
slots failed'; `restored n` a successful return after writing a blob of
n bytes to the destination path. -/
inductive ExtractResult
  | restored (size : Nat)
  | noSlots
  | allFailed
deriving DecidableEq, Repr

/-- The fallback loop of extract over the slots sorted newest-first.
`download` models streaming one slot to the destination file: `none` is
a stream error (caught and skipped), `some dl` a completed stream that
left dl bytes on disk. -/
def extractLoop (download : Slot → Option Nat) : List Slot → ExtractResult
  | [] => .allFailed
  | s :: rest =>
    if s.size < SIZE_THRESHOLD then extractLoop download rest
    else match download s with
      | none => extractLoop download rest
      | some dl => if dl < SIZE_THRESHOLD then extractLoop download rest
                   else .restored dl

/-- The store's extract (src/index.js lines 1217-1237). -/
def extract (download : Slot → Option Nat) (sn : String) (b : Bucket) : ExtractResult :=
  let slots := sortDesc (matchingSlots sn b.slots)
  if slots.isEmpty then .noSlots else extractLoop download slots

/-- A download in which the stored bytes arrive intact: the file written
to the destination has exactly the stored length. -/
def downloadIntact : Slot → Option Nat := fun s => some s.size

/-- A slot is exhausted by the fallback loop when its recorded size is
below the threshold, or its download errors, or the downloaded size is
below the threshold. -/
def slotExhausted (download : Slot → Option Nat) (s : Slot) : Prop :=
  s.size < SIZE_THRESHOLD ∨ download s = none ∨
    ∃ dl, download s = some dl ∧ dl < SIZE_THRESHOLD

/-- Well-formedness of a bucket: document ids are pairwise distinct and
below the next fresh id (GridFS _ids are unique). -/
def BucketWF (b : Bucket) : Prop :=
  (b.slots.map Slot.sid).Nodup ∧ ∀ s ∈ b.slots, s.sid < b.nextSid

instance : DecidablePred BucketWF := fun b => by
  unfold BucketWF; infer_instance

/-- Observable content of a slot: its upload time and byte size. -/
def slotProj (s : Slot) : Nat × Nat := (s.uploadDate, s.size)

/-- The last n elements of a list. -/
def lastN (n : Nat) (l : List α) : List α := l.drop (l.length - n)

/-- Boolean strict ascending check on a list of numbers. -/
def strictAsc : List Nat → Bool
  | [] => true
  | [_] => true
  | a :: b :: t => decide (a < b) && strictAsc (b :: t)

/-- Iterated saves of local blobs that all exist: each pair is
(Date.now() at the save, byte size of the blob). -/
def runSaves (maxBackups : Nat) (sn : String) (b : Bucket) : List (Nat × Nat) → Bucket
  | [] => b
  | (t, sz) :: rest => runSaves maxBackups sn (save maxBackups sn true sz t b).2 rest

/-- The saves that pass the corruption check. -/
def acceptedSaves (l : List (Nat × Nat)) : List (Nat × Nat) :=
  l.filter (fun p => decide (SIZE_THRESHOLD ≤ p.2))

/-! ## Inbound rate limiter (src/index.js lines 536-546)

rateLimitMap is an association list from sender id to the last
processed Date.now() timestamp; lookup and update mirror Map.get and
Map.set. -/

/-- Map.get on an association list. -/
def mget : List (String × Nat) → String → Option Nat
  | [], _ => none
  | (k, v) :: t, x => if k = x then some v else mget t x

/-- Map.set on an association list (update in place, else append). -/
def mset : List (String × Nat) → String → Nat → List (String × Nat)
  | [], x, v => [(x, v)]
  | (k, w) :: t, x, v => if k = x then (x, v) :: t else (k, w) :: mset t x v

/-- isRateLimited (src/index.js lines 537-542). The truthiness test
`last && now - last < RATE_LIMIT_MS` requires the stored timestamp to
be a truthy number, i.e. nonzero; the subtraction is carried out in
Int as in JavaScript. Returns the boolean result paired with the map
after the call. -/
def isRateLimited (rl : Nat) (now : Nat) (m : List (String × Nat))
    (sender : String) : Bool × List (String × Nat) :=
  match mget m sender with
  | some last =>
    if last ≠ 0 ∧ (now : Int) - (last : Int) < (rl : Int) then (true, m)
    else (false, mset m sender now)
  | none => (false, mset m sender now)

/-- The periodic sweep (src/index.js lines 543-546): delete every entry
whose timestamp is below Date.now() - RATE_LIMIT_MS * 10. -/
def sweepRateLimit (rl : Nat) (now : Nat) (m : List (String × Nat)) :
    List (String × Nat) :=
  m.filter (fun p => !((p.2 : Int) < (now : Int) - (rl : Int) * 10))

/-! ## Outbound delivery queue (src/index.js lines 548-584)

Queue items are numbered in enqueue order; an item's number stands for
its completion handle. `qEnqueue` is queuedReply followed by its
processQueue call; `qStep` is one iteration of the worker loop,
delivering the head item and releasing the drain flag when the queue
has emptied. `workers` counts worker loops that have entered the
draining section and not yet left it. -/

/-- Outcome of one wrapped delivery: the reply resolved within its
deadline, or the withTimeout deadline expired and the item's completion
handle was rejected with the timeout error. -/
inductive DeliverOutcome
  | delivered
  | timedOut
deriving DecidableEq, Repr

structure QState where
  queue : List Nat
  nextId : Nat
  draining : Bool
  workers : Nat
  started : List Nat
  completed : List (Nat × DeliverOutcome)
deriving DecidableEq, Repr

def qInit : QState := ⟨[], 0, false, 0, [], []⟩

/-- queuedReply: push the item, then call processQueue, which returns at
once when the drain flag is set and otherwise sets it and enters the
worker loop. -/
def qEnqueue (s : QState) : QState :=
  let s1 : QState := { s with queue := s.queue ++ [s.nextId], nextId := s.nextId + 1 }
  if s1.draining then s1
  else { s1 with draining := true, workers := s1.workers + 1 }

/-- One iteration of the worker loop: shift the head item, begin its
delivery attempt and record its outcome; when the queue is then empty
the loop exits and the finally block clears the drain flag. A call with
the drain flag down does nothing. -/
def qStep (out : DeliverOutcome) (s : QState) : QState :=
  if s.draining then
    match s.queue with
    | [] => { s with draining := false, workers := s.workers - 1 }
    | h :: rest =>
      { s with queue := rest,
               started := s.started ++ [h],
               completed := s.completed ++ [(h, out)],
               draining := if rest.isEmpty then false else true,
               workers := if rest.isEmpty then s.workers - 1 else s.workers }
  else s

inductive QEvent
  | enq
  | step (out : DeliverOutcome)
deriving DecidableEq, Repr

def qApply (s : QState) : QEvent → QState
  | .enq => qEnqueue s
  | .step out => qStep out s

def runQ (s : QState) : List QEvent → QState
  | [] => s
  | e :: es => runQ (qApply s e) es

/-! ## Lifecycle controller (src/index.js lines 1679-1798)

The state holds the isReady and isStarting flags, botStatus, the set of
armed ready-watchdog timers (`pending`, by timer id), the value of the
readyWatchdog variable (`tracked`), and the delay passed to the latest
scheduleRestart, if any. Events are the collaborator events handled by
start() plus watchdog expiry, a start() invocation and a startup
error. -/

/-- Restart delay after an auth_failure event (line 1744). -/
def AUTH_FAILURE_RESTART_DELAY : Nat := 10000

/-- Restart delay after a disconnected event (line 1760). -/
def DISCONNECT_RESTART_DELAY : Nat := 10000

/-- Restart delay after a startup error (line 1787). -/
def STARTUP_ERROR_RESTART_DELAY : Nat := 15000

/-- Restart delay when the ready watchdog fires (line 1738). -/
def WATCHDOG_RESTART_DELAY : Nat := 5000

inductive BotStatus
  | starting
  | qrReady
  | authenticated
  | ready
  | disconnected
deriving DecidableEq, Repr

structure LCState where
  isReady : Bool
  isStarting : Bool
  botStatus : BotStatus
  pending : List Nat
  tracked : Option Nat
  nextTimer : Nat
  pendingRestart : Option Nat
deriving DecidableEq, Repr

def lcInit : LCState :=
  ⟨false, false, .starting, [], none, 0, none⟩

/-- clearTimeout(readyWatchdog); readyWatchdog = null. Only the tracked
timer is cancelled. -/
def disarmTracked (s : LCState) : LCState :=
  match s.tracked with
  | some t => { s with pending := s.pending.erase t, tracked := none }
  | none => s

/-- scheduleRestart(ms) (lines 1791-1798): clear isStarting, clear the
tracked watchdog, schedule start after ms. -/
def schedRestart (ms : Nat) (s : LCState) : LCState :=
  let s1 := { s with isStarting := false }
  let s2 := disarmTracked s1
  { s2 with pendingRestart := some ms }

inductive LCEvent
  | startEntry
  | evQr
  | evAuthenticated
  | evAuthFailure
  | evReady
  | evDisconnected
  | watchdogFire (t : Nat)
  | startupError
deriving DecidableEq, Repr

/-- One transition of the lifecycle controller, from the handlers
installed by start(). -/
def lcStep (s : LCState) : LCEvent → LCState
  | .startEntry =>
    if s.isStarting then s
    else disarmTracked { s with isStarting := true, isReady := false,
                                botStatus := .starting, pendingRestart := none }
  | .evQr => { s with botStatus := .qrReady }
  | .evAuthenticated =>
    if s.isReady then s
    else { s with botStatus := .authenticated,
                  pending := s.pending ++ [s.nextTimer],
                  tracked := some s.nextTimer,
                  nextTimer := s.nextTimer + 1 }
  | .evAuthFailure =>
    schedRestart AUTH_FAILURE_RESTART_DELAY { s with botStatus := .disconnected }
  | .evReady =>
    let s1 := disarmTracked s
    { s1 with botStatus := .ready, isReady := true }
  | .evDisconnected =>
    let s1 := disarmTracked { s with botStatus := .disconnected,
                                     isReady := false, isStarting := false }
    schedRestart DISCONNECT_RESTART_DELAY s1
  | .watchdogFire t =>
    if t ∈ s.pending then
      let s1 := { s with pending := s.pending.erase t }
      if s1.isReady then s1 else schedRestart WATCHDOG_RESTART_DELAY s1
    else s
  | .startupError =>
    schedRestart STARTUP_ERROR_RESTART_DELAY { s with isStarting := false }

def runLC (s : LCState) : List LCEvent → LCState
  | [] => s
  | e :: es => runLC (lcStep s e) es

/-- Guard on traces: the collaborator arms a new watchdog only when none
is pending, i.e. 'authenticated' is not emitted a second time within one
connection attempt. -/
def armGuardOk (s : LCState) : LCEvent → Bool
  | .evAuthenticated => s.pending.isEmpty
  | _ => true

def goodFrom (s : LCState) : List LCEvent → Bool
  | [] => true
  | e :: es => armGuardOk s e && goodFrom (lcStep s e) es

/-! ## Process-wide error guards (src/index.js lines 1800-1834) -/

structure JsError where
  code : Option String
  syscall : Option String
  message : String
deriving DecidableEq, Repr

inductive ErrLevel
  | silent
  | warn
  | fatal
deriving DecidableEq, Repr

/-- The WARN_IGNORABLE substrings (lines 1805-1814). -/
def WARN_MESSAGES : List String :=
  ["Execution context was destroyed", "Target closed", "Session closed",
   "Protocol error", "Operation interrupted because client was closed",
   "Cannot use a session that has ended",
   "connection from closed connection pool", "Topology is closed"]

/-- classifyError (lines 1815-1819): the SILENT_IGNORABLE predicates
check the error code (and syscall); the WARN_IGNORABLE predicates check
for a known-benign substring of the message. -/
def classifyError (e : JsError) : ErrLevel :=
  if e.code = some "ENOENT" ∨ (e.code = some "EACCES" ∧ e.syscall = some "unlink")
  then .silent
  else if WARN_MESSAGES.any (fun w => strIncludes e.message w) then .warn
  else .fatal

/-- The uncaughtException / unhandledRejection handlers (lines
1820-1834): returns whether a restart is scheduled, given the current
isReady flag. -/
def uncaughtHandler (isReadyNow : Bool) (e : JsError) : Bool :=
  match classifyError e with
  | .silent => false
  | .warn => false
  | .fatal => !isReadyNow

/-! ## Helper lemmas on the rate-limiter map -/

theorem mget_filter (p : String × Nat → Bool) (m : List (String × Nat))
    (x : String) (v : Nat) (hm : mget m x = some v) (hp : p (x, v) = true) :
    mget (m.filter p) x = some v := by
  induction m with
  | nil => simp [mget] at hm
  | cons hd t ih =>
    obtain ⟨k, w⟩ := hd
    rw [mget] at hm
    by_cases hk : k = x
    · rw [if_pos hk] at hm
      injection hm with hv
      subst hv; subst hk
      rw [List.filter_cons, if_pos (by exact hp)]
      simp [mget]
    · rw [if_neg hk] at hm
      rw [List.filter_cons]
      by_cases hpk : p (k, w) = true
      · rw [if_pos (by exact hpk), mget, if_neg hk]
        exact ih hm
      · rw [if_neg (by simpa using hpk)]
        exact ih hm

/-- Claim C3 (counterexample): calling save while the local blob file is
absent does not fail at all: it returns successfully (the 'Zip not
found (skip)' early return) and leaves the stored set unchanged, rather
than failing with an IOError as the claim states. -/
theorem c3_counterexample :
    storeSave "alpha" false 5000 10 emptyBucket = (SaveResult.skippedNoZip, emptyBucket) ∧
    SaveResult.isFailure (storeSave "alpha" false 5000 10 emptyBucket).1 = false := by
  constructor <;> rfl

/-- Claim C3 (amended): for every call to the snapshot store's save
where the local blob file is absent, save logs a warning and returns
successfully without uploading anything; the bucket is unchanged and no
error is raised. -/
theorem c3_save_absent_blob_is_noop (maxB : Nat) (sn : String) (sz t : Nat) (b : Bucket) :
    save maxB sn false sz t b = (SaveResult.skippedNoZip, b) ∧
    SaveResult.isFailure (save maxB sn false sz t b).1 = false := by
  constructor <;> simp [save, SaveResult.isFailure]

/-- Claim C7 (counterexample): the general rule of the claim fails at
timestamp 0. After sender X is accepted at t = 0, an entry for X exists
with timestamp 0 and at t = 1000 the elapsed time 1000 is strictly
under the 3000 ms cooldown, yet the check returns false (accept),
because the source tests the truthiness of the stored timestamp and 0
is falsy. Hence the claim's example trace (X at t=0 accepted, at
t=1000 rejected) also fails. -/
theorem c7_counterexample :
    mget (isRateLimited 3000 0 [] "X").2 "X" = some 0 ∧
    ((1000 : Int) - 0 < 3000) ∧
    (isRateLimited 3000 1000 (isRateLimited 3000 0 [] "X").2 "X").1 = false := by
  refine ⟨by decide, by decide, by decide⟩

/-- Claim C7 (amended): for every sender, if a rate-limit entry exists
with a nonzero recorded timestamp and the elapsed time since it is
strictly under the cooldown window, the check returns true (reject)
without mutating the map; otherwise it records the current time and
returns false (accept). With cooldown 3000 ms, starting at any time
t0 > 0 (the real clock is never 0): X at t0 accepted, at t0 + 1000
rejected, at t0 + 3100 accepted. -/
theorem c7_rate_limiter (rl : Nat) (m : List (String × Nat)) (now : Nat)
    (x : String) (last : Nat) :
    (mget m x = some last → last ≠ 0 → (now : Int) - (last : Int) < (rl : Int) →
        isRateLimited rl now m x = (true, m)) ∧
    (mget m x = some last → ¬(last ≠ 0 ∧ (now : Int) - (last : Int) < (rl : Int)) →
        isRateLimited rl now m x = (false, mset m x now)) ∧
    (mget m x = none → isRateLimited rl now m x = (false, mset m x now)) ∧
    (∀ t0 : Nat, 0 < t0 →
        (isRateLimited 3000 t0 [] x).1 = false ∧
        (isRateLimited 3000 (t0 + 1000) (isRateLimited 3000 t0 [] x).2 x).1 = true ∧
        (isRateLimited 3000 (t0 + 3100)
          (isRateLimited 3000 (t0 + 1000) (isRateLimited 3000 t0 [] x).2 x).2 x).1 = false) := by
  refine ⟨?_, ?_, ?_, ?_⟩
  · intro hm h0 hlt
    simp only [isRateLimited, hm]
    rw [if_pos ⟨h0, hlt⟩]
  · intro hm hcond
    simp only [isRateLimited, hm]
    rw [if_neg hcond]
  · intro hm
    simp only [isRateLimited, hm]
  · intro t0 ht0
    have h1 : isRateLimited 3000 t0 [] x = (false, [(x, t0)]) := by
      simp only [isRateLimited, mget, mset]
    have hm1 : mget [(x, t0)] x = some t0 := by simp [mget]
    have h2 : isRateLimited 3000 (t0 + 1000) [(x, t0)] x = (true, [(x, t0)]) := by
      simp only [isRateLimited, hm1]
      rw [if_pos]
      refine ⟨by omega, ?_⟩
      push_cast; omega
    have h3 : (isRateLimited 3000 (t0 + 3100) [(x, t0)] x).1 = false := by
      simp only [isRateLimited, hm1]
      rw [if_neg (by intro hc; have := hc.2; push_cast at this; omega)]
    rw [h1]
    refine ⟨rfl, ?_, ?_⟩
    · rw [h2]
    · rw [h2]; exact h3

/-- Witness for the amended C7 at cooldown 3000 and start time 10. -/
theorem c7_witness :
    (0 : Nat) < 10 ∧
    (isRateLimited 3000 10 [] "X").1 = false ∧
    (isRateLimited 3000 1010 (isRateLimited 3000 10 [] "X").2 "X").1 = true ∧
    (isRateLimited 3000 3110
      (isRateLimited 3000 1010 (isRateLimited 3000 10 [] "X").2 "X").2 "X").1 = false := by
  have h := (c7_rate_limiter 3000 [] 0 "X" 0).2.2.2 10 (by decide)
  exact ⟨by decide, h.1, h.2.1, h.2.2⟩

/-- Claim C8 (counterexample): the claimed strict ordering of the three
delay tiers fails: the delay after a hard authentication failure
(10000 ms, line 1744) is not shorter than the delay after a generic
disconnect (10000 ms, line 1760) — they are equal. -/
theorem c8_counterexample :
    ¬(AUTH_FAILURE_RESTART_DELAY < DISCONNECT_RESTART_DELAY ∧
      DISCONNECT_RESTART_DELAY < STARTUP_ERROR_RESTART_DELAY) := by
  decide

/-- Claim C8 (amended): the restart procedure records a fixed delay
before re-invoking startup; the delay after a hard authentication
failure equals the standard delay after a generic disconnect (both
10 s), and both are shorter than the delay after a startup-level fault
(15 s); the watchdog-expiry restart uses the shortest delay (5 s). -/
theorem c8_restart_delay_tiers (s : LCState) :
    (lcStep s .evAuthFailure).pendingRestart = some AUTH_FAILURE_RESTART_DELAY ∧
    (lcStep s .evDisconnected).pendingRestart = some DISCONNECT_RESTART_DELAY ∧
    (lcStep s .startupError).pendingRestart = some STARTUP_ERROR_RESTART_DELAY ∧
    AUTH_FAILURE_RESTART_DELAY = DISCONNECT_RESTART_DELAY ∧
    DISCONNECT_RESTART_DELAY < STARTUP_ERROR_RESTART_DELAY ∧
    WATCHDOG_RESTART_DELAY < AUTH_FAILURE_RESTART_DELAY := by
  refine ⟨?_, ?_, ?_, rfl, by decide, by decide⟩ <;>
    simp [lcStep, schedRestart, disarmTracked]

/-- Claim C9: every process-wide fault matching the curated allow-list
(the SILENT_IGNORABLE code checks or a WARN_IGNORABLE message
substring) is dropped without any restart; any other fault schedules a
restart if and only if the system is not currently READY. -/
theorem c9_fault_classification (e : JsError) (r : Bool) :
    ((classifyError e = ErrLevel.silent ∨ classifyError e = ErrLevel.warn) →
        uncaughtHandler r e = false) ∧
    (classifyError e = ErrLevel.fatal → (uncaughtHandler r e = true ↔ r = false)) := by
  unfold uncaughtHandler
  constructor
  · rintro (h | h) <;> rw [h]
  · intro h
    rw [h]
    cases r <;> simp

/-- Witness for C9: an ENOENT fault while READY schedules no restart; an
unclassified fault while not READY schedules one. -/
theorem c9_witness :
    uncaughtHandler true ⟨some "ENOENT", none, "no such file"⟩ = false ∧
    uncaughtHandler false ⟨none, none, "boom"⟩ = true := by
  refine ⟨(c9_fault_classification ⟨some "ENOENT", none, "no such file"⟩ true).1
      (Or.inl (by decide)), ?_⟩
  exact ((c9_fault_classification ⟨none, none, "boom"⟩ false).2 (by decide)).mpr rfl

/-- Claim C10: the periodic sweep deletes only entries whose recorded
timestamp lies more than ten cooldown windows before the sweep time; an
entry still within its cooldown window at sweep time survives the
sweep; and a message that would be rejected (sent inside the cooldown
window) is still rejected after a sweep taken at or before the message
time. -/
theorem c10_sweep_preserves_cooldown (rl nows nowm : Nat) (m : List (String × Nat))
    (x : String) (ts : Nat) :
    (∀ p ∈ m, p ∉ sweepRateLimit rl nows m →
        (p.2 : Int) < (nows : Int) - (rl : Int) * 10) ∧
    (mget m x = some ts → (nows : Int) - (ts : Int) < (rl : Int) →
        mget (sweepRateLimit rl nows m) x = some ts) ∧
    (nows ≤ nowm → (isRateLimited rl nowm m x).1 = true →
        (isRateLimited rl nowm (sweepRateLimit rl nows m) x).1 = true) := by
  refine ⟨?_, ?_, ?_⟩
  · intro p hp hns
    by_contra hlt
    exact hns (List.mem_filter.mpr ⟨hp, by simpa using hlt⟩)
  · intro hm hin
    apply mget_filter _ _ _ _ hm
    simp only [Bool.not_eq_true', decide_eq_false_iff_not, not_lt, decide_eq_true_eq]
    omega
  · intro hle hrej
    rcases hmg : mget m x with _ | last
    · simp only [isRateLimited, hmg] at hrej
      simp at hrej
    · simp only [isRateLimited, hmg] at hrej
      by_cases hc : last ≠ 0 ∧ (nowm : Int) - (last : Int) < (rl : Int)
      · have hsur : mget (sweepRateLimit rl nows m) x = some last := by
          apply mget_filter _ _ _ _ hmg
          simp only [Bool.not_eq_true', decide_eq_false_iff_not, not_lt, decide_eq_true_eq]
          have := hc.2
          omega
        simp only [isRateLimited, hsur]
        rw [if_pos hc]
      · rw [if_neg hc] at hrej
        simp at hrej

/-- Witness for C10 at cooldown 3000, sweep and message both at t=5000,
one entry recorded at t=4000 (inside its cooldown window). -/
theorem c10_witness :
    mget (sweepRateLimit 3000 5000 [("X", 4000)]) "X" = some 4000 ∧
    (isRateLimited 3000 5000 (sweepRateLimit 3000 5000 [("X", 4000)]) "X").1 = true := by
  refine ⟨(c10_sweep_preserves_cooldown 3000 5000 5000 [("X", 4000)] "X" 4000).2.1
      (by decide) (by decide), ?_⟩
  exact (c10_sweep_preserves_cooldown 3000 5000 5000 [("X", 4000)] "X" 4000).2.2
      (by decide) (by decide)

/-! ## Queue invariant and Claim C6 -/

/-- Inductive invariant of the delivery queue: the worker count mirrors
the drain flag, the items attributed so far followed by the queued items
are exactly the ids handed out in enqueue order, and the flag is only
down when the queue is empty. -/
def QInv (s : QState) : Prop :=
  s.workers = (if s.draining then 1 else 0) ∧
  s.started ++ s.queue = List.range s.nextId ∧
  (s.draining = false → s.queue = [])

theorem qInv_init : QInv qInit := by
  refine ⟨rfl, by simp [qInit], fun _ => rfl⟩

theorem qInv_apply (s : QState) (e : QEvent) (h : QInv s) : QInv (qApply s e) := by
  obtain ⟨h1, h2, h3⟩ := h
  cases e with
  | enq =>
    show QInv (qEnqueue s)
    rw [qEnqueue]
    by_cases hd : s.draining
    · rw [if_pos (by simp [hd])]
      refine ⟨by simp [hd, h1], ?_, by simp [hd]⟩
      simp only []
      rw [← List.append_assoc, h2, List.range_succ]
    · rw [if_neg (by simp [hd])]
      refine ⟨by simp [h1, hd], ?_, by simp⟩
      simp only []
      rw [← List.append_assoc, h2, List.range_succ]
  | step out =>
    show QInv (qStep out s)
    rw [qStep]
    by_cases hd : s.draining
    · rw [if_pos hd]
      rcases hq : s.queue with _ | ⟨hh, rest⟩
      · refine ⟨by simp [hd, h1], by simpa [hq] using h2, fun _ => rfl⟩
      · rcases rest with _ | ⟨r2, rest2⟩
        · refine ⟨by simp [hd, h1], ?_, fun _ => rfl⟩
          simp only [List.isEmpty_nil]
          rw [List.append_assoc]
          simpa [hq] using h2
        · refine ⟨by simp [hd, h1], ?_, by simp⟩
          simp only [List.isEmpty_cons]
          rw [List.append_assoc]
          simpa [hq] using h2
    · rw [if_neg hd]
      exact ⟨h1, h2, h3⟩

theorem qInv_run (es : List QEvent) : ∀ s, QInv s → QInv (runQ s es) := by
  induction es with
  | nil => intro s h; exact h
  | cons e es ih => intro s h; exact ih _ (qInv_apply s e h)

/-- Claim C6: the outbound delivery queue is a single FIFO drained by at
most one active worker loop (the drain flag prevents a second concurrent
worker); items are attempted in enqueue order, so for A enqueued before
B, A's delivery attempt begins before B's; and when a dequeued item's
delivery times out, only that item's completion handle is rejected and
the worker continues with the rest of the queue. -/
theorem c6_queue_fifo (es : List QEvent) :
    (runQ qInit es).workers ≤ 1 ∧
    (runQ qInit es).started ++ (runQ qInit es).queue = List.range (runQ qInit es).nextId ∧
    (∀ a b, a < b → b ∈ (runQ qInit es).started →
        (runQ qInit es).started[a]? = some a ∧
        (runQ qInit es).started[b]? = some b) ∧
    (∀ h rest out, (runQ qInit es).draining = true → (runQ qInit es).queue = h :: rest →
        (qStep out (runQ qInit es)).started = (runQ qInit es).started ++ [h] ∧
        (qStep out (runQ qInit es)).completed = (runQ qInit es).completed ++ [(h, out)] ∧
        (qStep out (runQ qInit es)).queue = rest ∧
        (rest ≠ [] → (qStep out (runQ qInit es)).draining = true)) := by
  obtain ⟨h1, h2, h3⟩ := qInv_run es qInit qInv_init
  refine ⟨by rw [h1]; split <;> omega, h2, ?_, ?_⟩
  · intro a b hab hbmem
    have hst : (runQ qInit es).started =
        List.range (min (runQ qInit es).started.length (runQ qInit es).nextId) := by
      have := congrArg (List.take (runQ qInit es).started.length) h2
      rw [List.take_left, List.take_range] at this
      exact this
    rw [hst] at hbmem
    rw [hst]
    have hb : b < min (runQ qInit es).started.length (runQ qInit es).nextId :=
      List.mem_range.mp hbmem
    exact ⟨List.getElem?_range (lt_trans hab hb), List.getElem?_range hb⟩
  · intro h rest out hd hq
    rw [qStep, if_pos hd, hq]
    rcases rest with _ | ⟨r2, rest2⟩
    · exact ⟨rfl, rfl, rfl, fun hne => absurd rfl hne⟩
    · exact ⟨rfl, rfl, rfl, fun _ => rfl⟩

/-- Witness for C6 after two enqueues: one active worker, and a timeout
of the head item completes only that item and keeps draining. -/
theorem c6_witness :
    (runQ qInit [QEvent.enq, QEvent.enq]).workers ≤ 1 ∧
    (qStep DeliverOutcome.timedOut (runQ qInit [QEvent.enq, QEvent.enq])).completed =
      (runQ qInit [QEvent.enq, QEvent.enq]).completed ++ [(0, DeliverOutcome.timedOut)] ∧
    (qStep DeliverOutcome.timedOut (runQ qInit [QEvent.enq, QEvent.enq])).draining = true := by
  refine ⟨(c6_queue_fifo [QEvent.enq, QEvent.enq]).1, ?_, ?_⟩
  · exact ((c6_queue_fifo [QEvent.enq, QEvent.enq]).2.2.2 0 [1] DeliverOutcome.timedOut
      (by decide) (by decide)).2.1
  · exact ((c6_queue_fifo [QEvent.enq, QEvent.enq]).2.2.2 0 [1] DeliverOutcome.timedOut
      (by decide) (by decide)).2.2.2 (by decide)

/-! ## Lifecycle watchdog invariant and Claim C5 -/

/-- Watchdog invariant: either no timer is armed, or exactly one is and
the readyWatchdog variable points at it. -/
def LCInv (s : LCState) : Prop :=
  s.pending = [] ∨ ∃ t, s.pending = [t] ∧ s.tracked = some t

theorem disarmTracked_pending (s : LCState) (h : LCInv s) :
    (disarmTracked s).pending = [] ∧ (disarmTracked s).tracked = none := by
  rcases h with h | ⟨t, hp, ht⟩
  · rw [disarmTracked]
    rcases hs : s.tracked with _ | t
    · exact ⟨h, hs⟩
    · exact ⟨by simp [h], rfl⟩
  · rw [disarmTracked, ht]
    simp [hp]

theorem lcInv_step (s : LCState) (e : LCEvent) (h : LCInv s)
    (hg : armGuardOk s e = true) : LCInv (lcStep s e) := by
  cases e with
  | startEntry =>
    rw [lcStep]
    by_cases hs : s.isStarting
    · rw [if_pos hs]; exact h
    · rw [if_neg hs]
      left
      refine (disarmTracked_pending _ ?_).1
      exact h
  | evQr => exact h
  | evAuthenticated =>
    rw [lcStep]
    by_cases hr : s.isReady
    · rw [if_pos hr]; exact h
    · rw [if_neg hr]
      right
      refine ⟨s.nextTimer, ?_, rfl⟩
      have hp : s.pending = [] := by
        simpa [armGuardOk] using hg
      simp [hp]
  | evAuthFailure =>
    left
    simp only [lcStep, schedRestart]
    refine (disarmTracked_pending _ ?_).1
    exact h
  | evReady =>
    left
    simp only [lcStep]
    refine (disarmTracked_pending _ ?_).1
    exact h
  | evDisconnected =>
    left
    simp only [lcStep, schedRestart]
    refine (disarmTracked_pending _ ?_).1
    left
    refine (disarmTracked_pending _ ?_).1
    exact h
  | watchdogFire t =>
    rw [lcStep]
    by_cases hm : t ∈ s.pending
    · rw [if_pos hm]
      rcases h with h | ⟨t', hp, ht⟩
      · rw [h] at hm; simp at hm
      · rw [hp] at hm
        have htt : t = t' := by simpa using hm
        subst htt
        by_cases hr : s.isReady
        · rw [if_pos (by simpa using hr)]
          left; simp [hp]
        · rw [if_neg (by simpa using hr)]
          left
          rw [schedRestart, disarmTracked]
          simp [ht, hp]
    · rw [if_neg hm]; exact h
  | startupError =>
    left
    simp only [lcStep, schedRestart]
    refine (disarmTracked_pending _ ?_).1
    exact h

theorem lcInv_run : ∀ (es : List LCEvent) (s : LCState), LCInv s →
    goodFrom s es = true → LCInv (runLC s es) := by
  intro es
  induction es with
  | nil => intro s h _; exact h
  | cons e es ih =>
    intro s h hg
    rw [goodFrom, Bool.and_eq_true] at hg
    exact ih _ (lcInv_step s e h hg.1) hg.2

/-- Claim C5 (counterexample): the invariant fails on a reachable state.
If the collaborator emits 'authenticated' twice before ready (the
handler only checks isReady), the second arming overwrites the
readyWatchdog variable without clearing the first timer, leaving two
watchdog timers armed at once. -/
theorem c5_counterexample :
    ¬(∀ es : List LCEvent, (runLC lcInit es).pending.length ≤ 1) := by
  intro h
  exact absurd (h [LCEvent.evAuthenticated, LCEvent.evAuthenticated]) (by decide)

/-- Claim C5 (amended): provided the collaborator never emits
'authenticated' while a watchdog is already armed (at most one arming
per connection attempt), every reachable state of the lifecycle
controller has at most one watchdog timer armed, and the armed watchdog
is disarmed on every transition out of its arming state: the ready,
disconnected and auth-failure events, a startup error, a fresh start
entry, and the watchdog's own expiry all leave no timer armed. -/
theorem c5_watchdog_discipline (es : List LCEvent)
    (h : goodFrom lcInit es = true) :
    (runLC lcInit es).pending.length ≤ 1 ∧
    (lcStep (runLC lcInit es) .evReady).pending = [] ∧
    (lcStep (runLC lcInit es) .evDisconnected).pending = [] ∧
    (lcStep (runLC lcInit es) .evAuthFailure).pending = [] ∧
    (lcStep (runLC lcInit es) .startupError).pending = [] ∧
    (¬(runLC lcInit es).isStarting = true →
        (lcStep (runLC lcInit es) .startEntry).pending = []) ∧
    (∀ t, t ∈ (runLC lcInit es).pending →
        (lcStep (runLC lcInit es) (.watchdogFire t)).pending = []) := by
  have hinv : LCInv (runLC lcInit es) := lcInv_run es lcInit (Or.inl rfl) h
  refine ⟨?_, ?_, ?_, ?_, ?_, ?_, ?_⟩
  · rcases hinv with hp | ⟨t, hp, _⟩ <;> simp [hp]
  · simp only [lcStep]
    refine (disarmTracked_pending _ ?_).1
    exact hinv
  · simp only [lcStep, schedRestart]
    refine (disarmTracked_pending _ ?_).1
    left
    refine (disarmTracked_pending _ ?_).1
    exact hinv
  · simp only [lcStep, schedRestart]
    refine (disarmTracked_pending _ ?_).1
    exact hinv
  · simp only [lcStep, schedRestart]
    refine (disarmTracked_pending _ ?_).1
    exact hinv
  · intro hs
    rw [lcStep, if_neg hs]
    refine (disarmTracked_pending _ ?_).1
    exact hinv
  · intro t hmem
    rw [lcStep, if_pos hmem]
    rcases hinv with hp | ⟨t', hp, ht⟩
    · rw [hp] at hmem; simp at hmem
    · rw [hp] at hmem
      have htt : t = t' := by simpa using hmem
      subst htt
      by_cases hr : (runLC lcInit es).isReady
      · rw [if_pos (by simpa using hr)]
        simp [hp]
      · rw [if_neg (by simpa using hr)]
        rw [schedRestart, disarmTracked]
        simp [ht, hp]

/-- Witness for the amended C5 on the trace start-then-authenticated. -/
theorem c5_witness :
    goodFrom lcInit [LCEvent.startEntry, LCEvent.evAuthenticated] = true ∧
    (runLC lcInit [LCEvent.startEntry, LCEvent.evAuthenticated]).pending.length ≤ 1 := by
  refine ⟨by decide, ?_⟩
  exact (c5_watchdog_discipline [LCEvent.startEntry, LCEvent.evAuthenticated] (by decide)).1

/-! ## Sorting lemmas for the store -/

/-- The ordering produced by extract's comparator: newest first. -/
def newestFirst (a b : Slot) : Prop := b.uploadDate ≤ a.uploadDate

theorem insDesc_perm (s : Slot) (l : List Slot) : (insDesc s l).Perm (s :: l) := by
  induction l with
  | nil => exact List.Perm.refl _
  | cons t ts ih =>
    rw [insDesc]
    by_cases hc : t.uploadDate ≤ s.uploadDate
    · rw [if_pos hc]
    · rw [if_neg hc]
      exact ((ih.cons t).trans (List.Perm.swap s t ts))

theorem sortDesc_perm (l : List Slot) : (sortDesc l).Perm l := by
  induction l with
  | nil => exact List.Perm.refl _
  | cons h t ih =>
    rw [sortDesc]
    exact (insDesc_perm h (sortDesc t)).trans (ih.cons h)

theorem chain_insDesc (s : Slot) (l : List Slot)
    (h : List.Chain' newestFirst l) : List.Chain' newestFirst (insDesc s l) := by
  induction l with
  | nil => simp [insDesc]
  | cons t ts ih =>
    rw [insDesc]
    by_cases hc : t.uploadDate ≤ s.uploadDate
    · rw [if_pos hc]
      exact List.chain'_cons.mpr ⟨hc, h⟩
    · rw [if_neg hc]
      have ih' := ih h.tail
      cases ts with
      | nil =>
        simp only [insDesc]
        exact List.chain'_cons.mpr ⟨Nat.le_of_lt (Nat.lt_of_not_le hc), List.chain'_singleton s⟩
      | cons u us =>
        rw [insDesc]
        by_cases hu : u.uploadDate ≤ s.uploadDate
        · rw [if_pos hu]
          refine List.chain'_cons.mpr ⟨Nat.le_of_lt (Nat.lt_of_not_le hc), ?_⟩
          rw [insDesc, if_pos hu] at ih'
          exact ih'
        · rw [if_neg hu]
          refine List.chain'_cons.mpr ⟨(List.chain'_cons.mp h).1, ?_⟩
          rw [insDesc, if_neg hu] at ih'
          exact ih'

theorem chain_sortDesc (l : List Slot) : List.Chain' newestFirst (sortDesc l) := by
  induction l with
  | nil => simp [sortDesc]
  | cons h t ih =>
    rw [sortDesc]
    exact chain_insDesc h (sortDesc t) ih

/-! ## Extract lemmas and Claim C1 -/

theorem extractLoop_restored_ge (download : Slot → Option Nat) :
    ∀ l dl, extractLoop download l = .restored dl → SIZE_THRESHOLD ≤ dl := by
  intro l
  induction l with
  | nil => intro dl h; simp [extractLoop] at h
  | cons s rest ih =>
    intro dl h
    rw [extractLoop] at h
    by_cases hs : s.size < SIZE_THRESHOLD
    · rw [if_pos hs] at h; exact ih dl h
    · rw [if_neg hs] at h
      rcases hd : download s with _ | dl'
      · simp only [hd] at h; exact ih dl h
      · simp only [hd] at h
        by_cases hdl : dl' < SIZE_THRESHOLD
        · rw [if_pos hdl] at h; exact ih dl h
        · rw [if_neg hdl] at h
          injection h with he
          omega

theorem extractLoop_all_exhausted (download : Slot → Option Nat) :
    ∀ l, (∀ s ∈ l, slotExhausted download s) → extractLoop download l = .allFailed := by
  intro l
  induction l with
  | nil => intro _; rfl
  | cons s rest ih =>
    intro h
    have hrest := ih fun x hx => h x (List.mem_cons_of_mem s hx)
    rw [extractLoop]
    rcases h s (List.mem_cons_self s rest) with hs | hd | ⟨dl, hd, hdl⟩
    · rw [if_pos hs]; exact hrest
    · by_cases hs : s.size < SIZE_THRESHOLD
      · rw [if_pos hs]; exact hrest
      · rw [if_neg hs]; simp only [hd]; exact hrest
    · by_cases hs : s.size < SIZE_THRESHOLD
      · rw [if_pos hs]; exact hrest
      · rw [if_neg hs]; simp only [hd]; rw [if_pos hdl]; exact hrest

/-- Claim C1: for every session with at least one stored slot, extract
considers the slots newest-first (the processed list is sorted by
descending upload date and is a permutation of the stored slots); a
successful restore never returns a blob below the size threshold; if
every slot is exhausted (recorded size below threshold, download error,
or downloaded size below threshold) it fails with the all-slots-failed
error; the head slot succeeds immediately when both its sizes clear the
threshold, and an exhausted head slot is skipped in favour of the rest. -/
theorem c1_extract_spec (download : Slot → Option Nat) (sn : String) (b : Bucket) :
    (∀ dl, extract download sn b = .restored dl → SIZE_THRESHOLD ≤ dl) ∧
    List.Chain' newestFirst (sortDesc (matchingSlots sn b.slots)) ∧
    (sortDesc (matchingSlots sn b.slots)).Perm (matchingSlots sn b.slots) ∧
    (matchingSlots sn b.slots ≠ [] →
        (∀ s ∈ matchingSlots sn b.slots, slotExhausted download s) →
        extract download sn b = .allFailed) ∧
    (∀ s rest, sortDesc (matchingSlots sn b.slots) = s :: rest →
        (∀ dl, SIZE_THRESHOLD ≤ s.size → download s = some dl → SIZE_THRESHOLD ≤ dl →
            extract download sn b = .restored dl) ∧
        (slotExhausted download s →
            extract download sn b = extractLoop download rest)) := by
  refine ⟨?_, chain_sortDesc _, sortDesc_perm _, ?_, ?_⟩
  · intro dl h
    rw [extract] at h
    by_cases he : (sortDesc (matchingSlots sn b.slots)).isEmpty
    · rw [if_pos he] at h; exact absurd h (by simp)
    · rw [if_neg he] at h
      exact extractLoop_restored_ge download _ dl h
  · intro hne hex
    rw [extract]
    have hlen : (sortDesc (matchingSlots sn b.slots)).length =
        (matchingSlots sn b.slots).length := (sortDesc_perm _).length_eq
    have hne' : ¬(sortDesc (matchingSlots sn b.slots)).isEmpty := by
      rw [List.isEmpty_iff_length_eq_zero, hlen]
      simpa [List.length_eq_zero] using hne
    rw [if_neg hne']
    refine extractLoop_all_exhausted download _ fun s hs => hex s ?_
    exact (sortDesc_perm _).mem_iff.mp hs
  · intro s rest heq
    have hne' : ¬(sortDesc (matchingSlots sn b.slots)).isEmpty := by
      rw [heq]; simp
    constructor
    · intro dl hsz hd hdl
      rw [extract, if_neg hne', heq, extractLoop]
      rw [if_neg (by omega : ¬s.size < SIZE_THRESHOLD)]
      simp only [hd]
      rw [if_neg (by omega : ¬dl < SIZE_THRESHOLD)]
    · intro hex
      rw [extract, if_neg hne', heq, extractLoop]
      rcases hex with hs | hd | ⟨dl, hd, hdl⟩
      · rw [if_pos hs]
      · by_cases hs : s.size < SIZE_THRESHOLD
        · rw [if_pos hs]
        · rw [if_neg hs]; simp only [hd]
      · by_cases hs : s.size < SIZE_THRESHOLD
        · rw [if_pos hs]
        · rw [if_neg hs]; simp only [hd]; rw [if_pos hdl]

/-- Witness for C1: a bucket with one intact 1500-byte slot restores
1500 bytes, which clears the threshold. -/
theorem c1_witness :
    extract downloadIntact "alpha" ⟨[⟨0, "alpha.zip.5", 5, 1500⟩], 1⟩ =
      ExtractResult.restored 1500 ∧
    SIZE_THRESHOLD ≤ 1500 := by
  refine ⟨by decide, ?_⟩
  exact (c1_extract_spec downloadIntact "alpha" ⟨[⟨0, "alpha.zip.5", 5, 1500⟩], 1⟩).1
    1500 (by decide)

/-! ## Save lemmas: sorting, pruning and retention -/

theorem insAsc_perm (s : Slot) (l : List Slot) : (insAsc s l).Perm (s :: l) := by
  induction l with
  | nil => exact List.Perm.refl _
  | cons t ts ih =>
    rw [insAsc]
    by_cases hc : s.uploadDate ≤ t.uploadDate
    · rw [if_pos hc]
    · rw [if_neg hc]
      exact ((ih.cons t).trans (List.Perm.swap s t ts))

theorem sortAsc_perm (l : List Slot) : (sortAsc l).Perm l := by
  induction l with
  | nil => exact List.Perm.refl _
  | cons h t ih =>
    rw [sortAsc]
    exact (insAsc_perm h (sortAsc t)).trans (ih.cons h)

theorem insAsc_cons_of_le (s u : Slot) (us : List Slot)
    (h : s.uploadDate ≤ u.uploadDate) : insAsc s (u :: us) = s :: u :: us := by
  rw [insAsc, if_pos h]

theorem insAsc_append_last (s m : Slot) (l : List Slot)
    (h : s.uploadDate ≤ m.uploadDate) : insAsc s (l ++ [m]) = insAsc s l ++ [m] := by
  induction l with
  | nil =>
    simp only [List.nil_append, insAsc, if_pos h]
    rfl
  | cons t ts ih =>
    rw [List.cons_append, insAsc, insAsc]
    by_cases hc : s.uploadDate ≤ t.uploadDate
    · rw [if_pos hc, if_pos hc, List.cons_append, List.cons_append]
    · rw [if_neg hc, if_neg hc, ih, List.cons_append]

theorem sortAsc_append_max (l : List Slot) (m : Slot)
    (h : ∀ u ∈ l, u.uploadDate ≤ m.uploadDate) :
    sortAsc (l ++ [m]) = sortAsc l ++ [m] := by
  induction l with
  | nil => rfl
  | cons t ts ih =>
    rw [List.cons_append, sortAsc, ih (fun u hu => h u (List.mem_cons_of_mem t hu)),
      insAsc_append_last t m _ (h t (List.mem_cons_self t ts)), sortAsc]

theorem sortAsc_of_chain : ∀ l : List Slot,
    List.Chain' (fun a b : Slot => a.uploadDate < b.uploadDate) l → sortAsc l = l := by
  intro l
  induction l with
  | nil => intro _; rfl
  | cons t ts ih =>
    intro h
    rw [sortAsc, ih h.tail]
    cases ts with
    | nil => rfl
    | cons u us => exact insAsc_cons_of_le t u us (Nat.le_of_lt (List.chain'_cons.mp h).1)

/-- Deleting by id the ids of the first block of a duplicate-free list
removes exactly that block. -/
theorem filter_not_mem_sid_append (l1 l2 : List Slot)
    (hnd : ((l1 ++ l2).map Slot.sid).Nodup) :
    (l1 ++ l2).filter (fun d => decide (d.sid ∉ l1.map Slot.sid)) = l2 := by
  rw [List.map_append, List.nodup_append] at hnd
  rw [List.filter_append]
  have h1 : l1.filter (fun d => decide (d.sid ∉ l1.map Slot.sid)) = [] := by
    apply List.filter_eq_nil_iff.mpr
    intro a ha
    simp only [decide_eq_true_eq, Decidable.not_not]
    exact List.mem_map_of_mem Slot.sid ha
  have h2 : l2.filter (fun d => decide (d.sid ∉ l1.map Slot.sid)) = l2 := by
    apply List.filter_eq_self.mpr
    intro a ha
    simp only [decide_eq_true_eq]
    intro hmem
    exact hnd.2.2 hmem (List.mem_map_of_mem Slot.sid ha)
  rw [h1, h2, List.nil_append]

/-- Deleting by id exactly the ids of the first k documents of a
duplicate-free list removes exactly those documents. -/
theorem filter_not_mem_take_sid (l : List Slot) (k : Nat)
    (hnd : (l.map Slot.sid).Nodup) :
    l.filter (fun d => decide (d.sid ∉ (l.take k).map Slot.sid)) = l.drop k := by
  have h := filter_not_mem_sid_append (l.take k) (l.drop k)
    (by rw [List.take_append_drop]; exact hnd)
  rw [List.take_append_drop] at h
  exact h

theorem strStarts_slotName (sn : String) (t : Nat) :
    strStarts (slotName sn t) (sn ++ ".zip.") = true := by
  rw [slotName, strStarts]
  rw [show sn ++ ".zip." ++ toString t = (sn ++ ".zip.") ++ toString t from rfl]
  rw [String.data_append]
  exact lpre_self_append _ _

theorem matchingSlots_append (sn : String) (l₁ l₂ : List Slot) :
    matchingSlots sn (l₁ ++ l₂) = matchingSlots sn l₁ ++ matchingSlots sn l₂ :=
  List.filter_append l₁ l₂

theorem matchingSlots_filter (sn : String) (p : Slot → Bool) (l : List Slot) :
    matchingSlots sn (l.filter p) = (matchingSlots sn l).filter p := by
  rw [matchingSlots, matchingSlots, List.filter_filter, List.filter_filter]
  congr 1
  funext a
  rw [Bool.and_comm]

/-- The new document uploaded by an accepted save. -/
def newSlotOf (sn : String) (sz t : Nat) (b : Bucket) : Slot :=
  ⟨b.nextSid, slotName sn t, t, sz⟩

/-- The accepted branch of save, written out. -/
theorem save_accepted_eq (maxB : Nat) (sn : String) (sz t : Nat) (b : Bucket)
    (hsz : SIZE_THRESHOLD ≤ sz) :
    save maxB sn true sz t b =
      (.saved,
        ⟨(b.slots ++ [newSlotOf sn sz t b]).filter
            (fun d => decide (d.sid ∉
              ((sortAsc (matchingSlots sn
                  (b.slots ++ [newSlotOf sn sz t b]))).take
                ((sortAsc (matchingSlots sn
                  (b.slots ++ [newSlotOf sn sz t b]))).length - maxB)).map
                  Slot.sid)),
          b.nextSid + 1⟩) := by
  rw [save, if_neg (by simp), if_neg (by omega)]
  rfl

theorem chain'_drop (R : α → α → Prop) (n : Nat) :
    ∀ l : List α, List.Chain' R l → List.Chain' R (l.drop n) := by
  induction n with
  | zero => intro l h; exact h
  | succ n ih =>
    intro l h
    cases l with
    | nil => exact h
    | cons a t => exact ih t h.tail

theorem lastN_snoc_drop (n : Nat) (hn : 1 ≤ n) (l : List α) (x : α) :
    (lastN n l ++ [x]).drop ((lastN n l ++ [x]).length - n) = lastN n (l ++ [x]) := by
  rw [lastN, lastN]
  rcases le_or_lt n l.length with hle | hlt
  · have h1 : (l.drop (l.length - n) ++ [x]).length - n = 1 := by
      rw [List.length_append, List.length_drop]
      simp only [List.length_singleton]
      omega
    rw [h1, List.drop_append_eq_append_drop, List.drop_drop]
    have h2 : 1 - (l.drop (l.length - n)).length = 0 := by
      rw [List.length_drop]; omega
    rw [h2, List.drop_zero]
    have h3 : (l ++ [x]).length - n = l.length + 1 - n := by
      simp
    rw [h3, List.drop_append_eq_append_drop]
    have h4 : l.length + 1 - n - l.length = 0 := by omega
    rw [h4, List.drop_zero]
    have h5 : l.length - n + 1 = l.length + 1 - n := by omega
    rw [h5]
  · have h0 : l.length - n = 0 := by omega
    rw [h0, List.drop_zero]

theorem strictAsc_head_lt : ∀ (l : List Nat) (a : Nat), strictAsc (a :: l) = true →
    strictAsc l = true ∧ ∀ x ∈ l, a < x := by
  intro l
  induction l with
  | nil => intro a _; exact ⟨rfl, by simp⟩
  | cons b t ih =>
    intro a h
    rw [strictAsc, Bool.and_eq_true, decide_eq_true_eq] at h
    obtain ⟨hab, hbt⟩ := h
    refine ⟨hbt, ?_⟩
    intro x hx
    rcases List.mem_cons.mp hx with hx | hx
    · rw [hx]; exact hab
    · exact Nat.lt_trans hab ((ih b hbt).2 x hx)

theorem nodup_sid_append_new (sn : String) (sz t : Nat) (b : Bucket)
    (hnd : (b.slots.map Slot.sid).Nodup) (hsid : ∀ s ∈ b.slots, s.sid < b.nextSid) :
    ((b.slots ++ [newSlotOf sn sz t b]).map Slot.sid).Nodup := by
  rw [List.map_append, List.nodup_append]
  refine ⟨hnd, List.nodup_singleton _, ?_⟩
  intro a ha hb
  have hab : a = b.nextSid := by simpa [newSlotOf] using hb
  obtain ⟨x, hx, hxa⟩ := List.mem_map.mp ha
  rw [hab] at hxa
  exact absurd hxa (Nat.ne_of_lt (hsid x hx))

/-! ## The retention scenario: repeated saves of one session -/

/-- Invariant of a bucket produced purely by saves for session sn with
strictly increasing timestamps: the stored documents are the last
maxBackups accepted saves, in order; all filenames are slot names of sn;
upload dates strictly increase; ids are distinct and below the next
fresh id. -/
def ScenarioInv (sn : String) (maxBackups : Nat) (b : Bucket)
    (acc : List (Nat × Nat)) : Prop :=
  b.slots.map slotProj = lastN maxBackups acc ∧
  (∀ s ∈ b.slots, s.filename = slotName sn s.uploadDate) ∧
  List.Chain' (fun a b : Slot => a.uploadDate < b.uploadDate) b.slots ∧
  (b.slots.map Slot.sid).Nodup ∧
  (∀ s ∈ b.slots, s.sid < b.nextSid)

theorem scenario_step (sn : String) (maxB sz t : Nat) (b : Bucket)
    (acc : List (Nat × Nat)) (hinv : ScenarioInv sn maxB b acc) (hmaxB : 1 ≤ maxB)
    (hsz : SIZE_THRESHOLD ≤ sz) (ht : ∀ s ∈ b.slots, s.uploadDate < t) :
    ScenarioInv sn maxB (save maxB sn true sz t b).2 (acc ++ [(t, sz)]) ∧
    (∀ s ∈ (save maxB sn true sz t b).2.slots, s.uploadDate = t ∨ s ∈ b.slots) := by
  obtain ⟨hproj, hfn, hchain, hnd, hsid⟩ := hinv
  have hmatchall : matchingSlots sn (b.slots ++ [newSlotOf sn sz t b]) =
      b.slots ++ [newSlotOf sn sz t b] := by
    apply List.filter_eq_self.mpr
    intro a ha
    rcases List.mem_append.mp ha with ha | ha
    · rw [hfn a ha]; exact strStarts_slotName sn a.uploadDate
    · have hanew : a = newSlotOf sn sz t b := by simpa using ha
      rw [hanew]
      exact strStarts_slotName sn t
  have hchain2 : List.Chain' (fun a b : Slot => a.uploadDate < b.uploadDate)
      (b.slots ++ [newSlotOf sn sz t b]) := by
    rw [List.chain'_append]
    refine ⟨hchain, List.chain'_singleton _, ?_⟩
    intro x hx y hy
    have hxmem : x ∈ b.slots := by
      obtain ⟨hne, hx'⟩ := List.mem_getLast?_eq_getLast hx
      rw [hx']; exact List.getLast_mem hne
    have hynew : newSlotOf sn sz t b = y := by simpa using hy
    rw [← hynew]
    exact ht x hxmem
  have hsorted : sortAsc (matchingSlots sn (b.slots ++ [newSlotOf sn sz t b])) =
      b.slots ++ [newSlotOf sn sz t b] := by
    rw [hmatchall]; exact sortAsc_of_chain _ hchain2
  have hndall := nodup_sid_append_new sn sz t b hnd hsid
  have hslots : (save maxB sn true sz t b).2.slots =
      (b.slots ++ [newSlotOf sn sz t b]).drop
        ((b.slots ++ [newSlotOf sn sz t b]).length - maxB) := by
    rw [save_accepted_eq maxB sn sz t b hsz]
    show (b.slots ++ [newSlotOf sn sz t b]).filter _ = _
    rw [hsorted]
    exact filter_not_mem_take_sid (b.slots ++ [newSlotOf sn sz t b]) _ hndall
  have hnext : (save maxB sn true sz t b).2.nextSid = b.nextSid + 1 := by
    rw [save_accepted_eq maxB sn sz t b hsz]
  have hmemof : ∀ s ∈ (save maxB sn true sz t b).2.slots,
      s = newSlotOf sn sz t b ∨ s ∈ b.slots := by
    intro s hs
    rw [hslots] at hs
    rcases List.mem_append.mp (List.mem_of_mem_drop hs) with h | h
    · exact Or.inr h
    · exact Or.inl (by simpa using h)
  have hprojappend : (b.slots ++ [newSlotOf sn sz t b]).map slotProj =
      lastN maxB acc ++ [(t, sz)] := by
    rw [List.map_append, hproj]; rfl
  have hlenab : (b.slots ++ [newSlotOf sn sz t b]).length =
      (lastN maxB acc ++ [(t, sz)]).length := by
    have := congrArg List.length hprojappend
    rw [List.length_map] at this
    exact this
  refine ⟨⟨?_, ?_, ?_, ?_, ?_⟩, ?_⟩
  · rw [hslots, List.map_drop, hprojappend, hlenab]
    exact lastN_snoc_drop maxB hmaxB acc (t, sz)
  · intro s hs
    rcases hmemof s hs with h | h
    · rw [h]; rfl
    · exact hfn s h
  · rw [hslots]
    exact chain'_drop _ _ _ hchain2
  · rw [hslots]
    exact List.Nodup.sublist (List.Sublist.map _ (List.drop_sublist _ _)) hndall
  · intro s hs
    rw [hnext]
    rcases hmemof s hs with h | h
    · rw [h]; exact Nat.lt_succ_self _
    · exact Nat.lt_succ_of_lt (hsid s h)
  · intro s hs
    rcases hmemof s hs with h | h
    · exact Or.inl (by rw [h]; rfl)
    · exact Or.inr h

theorem runSaves_inv (sn : String) (maxB : Nat) (hmaxB : 1 ≤ maxB) :
    ∀ (saves : List (Nat × Nat)) (b : Bucket) (acc : List (Nat × Nat)),
      ScenarioInv sn maxB b acc →
      strictAsc (saves.map Prod.fst) = true →
      (∀ s ∈ b.slots, ∀ p ∈ saves, s.uploadDate < p.1) →
      ScenarioInv sn maxB (runSaves maxB sn b saves) (acc ++ acceptedSaves saves) := by
  intro saves
  induction saves with
  | nil =>
    intro b acc hinv _ _
    simpa [runSaves, acceptedSaves] using hinv
  | cons p rest ih =>
    obtain ⟨t, sz⟩ := p
    intro b acc hinv hasc hlt
    rw [runSaves]
    have hasc' : strictAsc (t :: rest.map Prod.fst) = true := hasc
    have hhead := strictAsc_head_lt (rest.map Prod.fst) t hasc'
    by_cases hsz : SIZE_THRESHOLD ≤ sz
    · have hstep := scenario_step sn maxB sz t b acc hinv hmaxB hsz
        (fun s hs => hlt s hs (t, sz) (List.mem_cons_self _ _))
      have hafter : ∀ s ∈ (save maxB sn true sz t b).2.slots,
          ∀ q ∈ rest, s.uploadDate < q.1 := by
        intro s hs q hq
        rcases hstep.2 s hs with hst | hold
        · rw [hst]
          exact hhead.2 q.1 (List.mem_map_of_mem Prod.fst hq)
        · exact hlt s hold q (List.mem_cons_of_mem _ hq)
      have hrec := ih (save maxB sn true sz t b).2 (acc ++ [(t, sz)])
        hstep.1 hhead.1 hafter
      have hacc : acceptedSaves ((t, sz) :: rest) = (t, sz) :: acceptedSaves rest := by
        rw [acceptedSaves, List.filter_cons, if_pos (by simpa using hsz)]
        rfl
      rw [hacc]
      rw [show acc ++ ((t, sz) :: acceptedSaves rest) =
        (acc ++ [(t, sz)]) ++ acceptedSaves rest by simp]
      exact hrec
    · have hrej : save maxB sn true sz t b = (.corruptInput, b) := by
        rw [save, if_neg (by simp), if_pos (by omega)]
      rw [hrej]
      have hacc : acceptedSaves ((t, sz) :: rest) = acceptedSaves rest := by
        rw [acceptedSaves, List.filter_cons, if_neg (by simpa using hsz)]
        rfl
      rw [hacc]
      exact ih b acc hinv hhead.1
        (fun s hs q hq => hlt s hs q (List.mem_cons_of_mem _ hq))

/-- Claim C2: a save of a blob below the minimum-size threshold fails
as CorruptInput before any upload and leaves the stored set unchanged;
after every successful save the number of stored slots of the session
is at most the configured maximum (the oldest excess is pruned); and
for any series of saves with strictly increasing timestamps starting
from an empty bucket, after the last save exactly the last
maxBackups accepted saves remain, newest last — in particular, with
retention bound 1 and saves of 800, 5000 and 6000 bytes, exactly the
6000-byte slot remains (see the witness). -/
theorem c2_retention (maxB : Nat) (sn : String) (sz t : Nat) (b : Bucket)
    (saves : List (Nat × Nat)) :
    (sz < SIZE_THRESHOLD → save maxB sn true sz t b = (.corruptInput, b)) ∧
    (BucketWF b → SIZE_THRESHOLD ≤ sz →
        (matchingSlots sn (save maxB sn true sz t b).2.slots).length ≤ maxB) ∧
    (1 ≤ maxB → strictAsc (saves.map Prod.fst) = true →
        (runSaves maxB sn emptyBucket saves).slots.map slotProj =
          lastN maxB (acceptedSaves saves)) := by
  refine ⟨?_, ?_, ?_⟩
  · intro hsz
    rw [save, if_neg (by simp), if_pos hsz]
  · intro hwf hsz
    have hndall := nodup_sid_append_new sn sz t b hwf.1 hwf.2
    have hndM : ((matchingSlots sn (b.slots ++ [newSlotOf sn sz t b])).map Slot.sid).Nodup :=
      List.Nodup.sublist (List.Sublist.map _ (List.filter_sublist _)) hndall
    have hperm : (sortAsc (matchingSlots sn (b.slots ++ [newSlotOf sn sz t b]))).Perm
        (matchingSlots sn (b.slots ++ [newSlotOf sn sz t b])) := sortAsc_perm _
    have hndS : ((sortAsc (matchingSlots sn (b.slots ++ [newSlotOf sn sz t b]))).map
        Slot.sid).Nodup := ((hperm.map Slot.sid).nodup_iff).mpr hndM
    have hslots : (save maxB sn true sz t b).2.slots =
        (b.slots ++ [newSlotOf sn sz t b]).filter
          (fun d => decide (d.sid ∉
            ((sortAsc (matchingSlots sn (b.slots ++ [newSlotOf sn sz t b]))).take
              ((sortAsc (matchingSlots sn
                (b.slots ++ [newSlotOf sn sz t b]))).length - maxB)).map Slot.sid)) := by
      rw [save_accepted_eq maxB sn sz t b hsz]
    rw [hslots, matchingSlots_filter]
    have hlf := ((hperm.filter (fun d => decide (d.sid ∉
        ((sortAsc (matchingSlots sn (b.slots ++ [newSlotOf sn sz t b]))).take
          ((sortAsc (matchingSlots sn
            (b.slots ++ [newSlotOf sn sz t b]))).length - maxB)).map Slot.sid))).length_eq)
    rw [← hlf, filter_not_mem_take_sid _ _ hndS, List.length_drop]
    omega
  · intro hmaxB hasc
    have hinit : ScenarioInv sn maxB emptyBucket [] := by
      refine ⟨?_, ?_, ?_, ?_, ?_⟩ <;> simp [emptyBucket, lastN]
    have h := runSaves_inv sn maxB hmaxB saves emptyBucket [] hinit hasc
      (by intro s hs; simp [emptyBucket] at hs)
    simpa using h.1

/-- Witness for C2 on the spec's retention example: bound 1, saves of
800 (rejected), 5000 and 6000 bytes at times 10, 20, 30 — exactly one
slot remains, the 6000-byte one uploaded at t=30. -/
theorem c2_witness :
    strictAsc [10, 20, 30] = true ∧
    (runSaves 1 "alpha" emptyBucket [(10, 800), (20, 5000), (30, 6000)]).slots.map
      slotProj = [(30, 6000)] := by
  refine ⟨by decide, ?_⟩
  have h := (c2_retention 1 "alpha" 0 0 emptyBucket
    [(10, 800), (20, 5000), (30, 6000)]).2.2 (by decide) (by decide)
  rw [h]
  decide

/-- Claim C4: for every session identifier and every local blob whose
byte size is at least the minimum-size threshold, save followed by
restore into a fresh destination yields a blob of identical byte size,
given that the bucket's ids are well formed and the new upload is newer
than every already-stored slot of the session (Date.now() is
monotonic). -/
theorem c4_save_restore_roundtrip (sn : String) (b : Bucket) (sz t : Nat)
    (hwf : BucketWF b) (hsz : SIZE_THRESHOLD ≤ sz)
    (hnew : ∀ s ∈ matchingSlots sn b.slots, s.uploadDate < t) :
    extract downloadIntact sn (storeSave sn true sz t b).2 =
      ExtractResult.restored sz := by
  obtain ⟨hnd, hsid⟩ := hwf
  have hmatch_single : matchingSlots sn [newSlotOf sn sz t b] = [newSlotOf sn sz t b] := by
    apply List.filter_eq_self.mpr
    intro a ha
    have haeq : a = newSlotOf sn sz t b := by simpa using ha
    rw [haeq]
    exact strStarts_slotName sn t
  have hmapp : matchingSlots sn (b.slots ++ [newSlotOf sn sz t b]) =
      matchingSlots sn b.slots ++ [newSlotOf sn sz t b] := by
    rw [matchingSlots_append, hmatch_single]
  have hsortapp : sortAsc (matchingSlots sn b.slots ++ [newSlotOf sn sz t b]) =
      sortAsc (matchingSlots sn b.slots) ++ [newSlotOf sn sz t b] :=
    sortAsc_append_max _ _ (fun u hu => Nat.le_of_lt (hnew u hu))
  have hMB : MAX_BACKUPS = 1 := rfl
  have hslots : (storeSave sn true sz t b).2.slots =
      (b.slots ++ [newSlotOf sn sz t b]).filter
        (fun d => decide (d.sid ∉ (sortAsc (matchingSlots sn b.slots)).map Slot.sid)) := by
    rw [storeSave, save_accepted_eq MAX_BACKUPS sn sz t b hsz]
    show (b.slots ++ [newSlotOf sn sz t b]).filter _ = _
    simp only [hmapp, hsortapp, hMB, List.length_append, List.length_singleton,
      Nat.add_sub_cancel, List.take_left]
  have hMfilter : (matchingSlots sn b.slots).filter
      (fun d => decide (d.sid ∉ (sortAsc (matchingSlots sn b.slots)).map Slot.sid)) = [] := by
    apply List.filter_eq_nil_iff.mpr
    intro a ha
    simp only [decide_eq_true_eq, Decidable.not_not]
    exact (((sortAsc_perm _).map Slot.sid).mem_iff).mpr (List.mem_map_of_mem Slot.sid ha)
  have hnewfilter : ([newSlotOf sn sz t b] : List Slot).filter
      (fun d => decide (d.sid ∉ (sortAsc (matchingSlots sn b.slots)).map Slot.sid)) =
      [newSlotOf sn sz t b] := by
    apply List.filter_eq_self.mpr
    intro a ha
    have haeq : a = newSlotOf sn sz t b := by simpa using ha
    rw [haeq]
    simp only [decide_eq_true_eq]
    intro hmem
    have hmem2 : (newSlotOf sn sz t b).sid ∈ (matchingSlots sn b.slots).map Slot.sid :=
      (((sortAsc_perm _).map Slot.sid).mem_iff).mp hmem
    obtain ⟨x, hx, hxa⟩ := List.mem_map.mp hmem2
    have hxb : x ∈ b.slots := (List.mem_filter.mp hx).1
    exact absurd hxa (Nat.ne_of_lt (hsid x hxb))
  have hmkeep : matchingSlots sn (storeSave sn true sz t b).2.slots =
      [newSlotOf sn sz t b] := by
    rw [hslots, matchingSlots_filter, hmapp, List.filter_append, hMfilter, hnewfilter,
      List.nil_append]
  simp only [extract, hmkeep, sortDesc, insDesc]
  rw [if_neg (by simp)]
  rw [extractLoop]
  rw [if_neg (show ¬(newSlotOf sn sz t b).size < SIZE_THRESHOLD from by
    show ¬sz < SIZE_THRESHOLD
    omega)]
  simp only [downloadIntact]
  rw [if_neg (show ¬(newSlotOf sn sz t b).size < SIZE_THRESHOLD from by
    show ¬sz < SIZE_THRESHOLD
    omega)]
  rfl

/-- Witness for C4: an empty session bucket, one 5000-byte save at t=10,
then restore — the restored blob also has 5000 bytes. -/
theorem c4_witness :
    extract downloadIntact "alpha" (storeSave "alpha" true 5000 10 emptyBucket).2 =
      ExtractResult.restored 5000 :=
  c4_save_restore_roundtrip "alpha" emptyBucket 5000 10
    (by refine ⟨?_, ?_⟩ <;> simp [emptyBucket])
    (by decide)
    (by intro s hs; simp [matchingSlots, emptyBucket] at hs)
